import Mathlib

/-!
Verification of the commodity-price dashboard data pipeline (`app.py`).

The development shallowly embeds the data model and the operations of the
dashboard: `load_data` (column validation, row coercion, defaults, sorting),
`add_changes` (per-commodity month-over-month and year-over-year percentage
change), `filter_data` (commodity set and inclusive date interval), the
monthly-spike panel, the before/after panel, the CSV export round trip, and
the default pivot-year selection.

Conventions of the embedding:
* a table is a `List` of rows, in dataframe row order;
* dates are integers in `yyyymmdd` form, so that integer order is
  chronological order and `year`/`month` are recovered arithmetically;
* prices are exact rationals; a float cell that is missing-or-unparseable
  is `none` at the raw layer;
* percentage-change cells live in `FVal`, which mirrors the float results
  of `pct_change`: a finite value, `+inf`/`-inf` (previous price zero), or
  `nan` (no previous observation, or a zero-by-zero division); `nan` is
  the "undefined / missing" value that `dropna` removes;
* string normalization (`strip`/`lower`) and string ordering are modelled
  character-exactly on `String.data`.
-/

/-- ASCII lower-casing of one character, as applied to column names. -/
def lowerChar (c : Char) : Char :=
  if 'A' ≤ c ∧ c ≤ 'Z' then Char.ofNat (c.toNat + 32) else c

/-- Whitespace test used by `strip`. -/
def isSpaceChar (c : Char) : Bool :=
  c = ' ' || c = '\t' || c = '\n' || c = '\r'

/-- Removal of leading and trailing whitespace from a character list. -/
def trimChars (l : List Char) : List Char :=
  ((l.dropWhile isSpaceChar).reverse.dropWhile isSpaceChar).reverse

/-- Model of Python `s.strip()` on a string. -/
def stripStr (s : String) : String := ⟨trimChars s.data⟩

/-- Model of Python `c.strip().lower()` applied to a column name. -/
def normName (s : String) : String := ⟨(trimChars s.data).map lowerChar⟩

/-- Lexicographic strict order on character lists (Python string `<`). -/
def lexLtB : List Char → List Char → Bool
  | [], [] => false
  | [], _ :: _ => true
  | _ :: _, [] => false
  | a :: as, b :: bs => if a < b then true else if b < a then false else lexLtB as bs

/-- Lexicographic strict order on strings. -/
def strLtB (a b : String) : Bool := lexLtB a.data b.data

/-- Lexicographic reflexive order on strings. -/
def strLeB (a b : String) : Bool := !(strLtB b a)

/-- Float-like value of a percentage-change cell: finite, infinite, or NaN.
`nan` is the missing/undefined value that `dropna` removes; the infinities
arise from division by a zero previous price. -/
inductive FVal : Type where
  | nan : FVal
  | pinf : FVal
  | ninf : FVal
  | val : Rat → FVal
deriving DecidableEq, Repr

/-- A loaded price observation: the row type of the dataframe produced by
`load_data` (required fields coerced, defaults applied, `year`/`month`
derived from the date). -/
structure Row where
  date : Int
  commodity : String
  price : Rat
  currency : String
  unit : String
  year : Int
  month : Int
deriving DecidableEq, Repr

/-- Default row used only to give total versions of partial lookups. -/
def row0 : Row :=
  { date := 0, commodity := "", price := 0, currency := "", unit := "", year := 0, month := 0 }

/-- A derived observation: a `Row` with the two percentage-change columns
added by `add_changes`. -/
structure DRow extends Row where
  mom_pct : FVal
  yoy_pct : FVal
deriving DecidableEq, Repr

/-- Default derived row used only to give total versions of partial lookups. -/
def dRow0 : DRow := { toRow := row0, mom_pct := FVal.nan, yoy_pct := FVal.nan }

/-- Model of `filter_data`: keep the rows whose commodity is in the selected
set and whose date lies in the inclusive interval `[startDate, endDate]`. -/
def filterData (t : List Row) (sel : List String) (startDate endDate : Int) : List Row :=
  t.filter (fun r => sel.contains r.commodity &&
    decide (startDate ≤ r.date) && decide (r.date ≤ endDate))

/-- C5: `filter_data` returns exactly the rows whose commodity is selected and
whose date lies in the inclusive interval; both boundary dates are included
and nothing outside the selection or interval survives. Stated as a
membership characterization plus a multiplicity characterization. -/
theorem c5_filter_exact (t : List Row) (sel : List String) (startDate endDate : Int) :
    (∀ r : Row, r ∈ filterData t sel startDate endDate ↔
      (r ∈ t ∧ r.commodity ∈ sel ∧ startDate ≤ r.date ∧ r.date ≤ endDate)) ∧
    (∀ r : Row, (filterData t sel startDate endDate).count r =
      if r.commodity ∈ sel ∧ startDate ≤ r.date ∧ r.date ≤ endDate then t.count r else 0) := by
  constructor
  · intro r
    simp [filterData, List.mem_filter, and_assoc]
  · intro r
    have hpred : ∀ x : Row,
        (sel.contains x.commodity && decide (startDate ≤ x.date) && decide (x.date ≤ endDate)) =
          decide (x.commodity ∈ sel ∧ startDate ≤ x.date ∧ x.date ≤ endDate) := by
      intro x
      by_cases h1 : x.commodity ∈ sel <;> by_cases h2 : startDate ≤ x.date <;>
        by_cases h3 : x.date ≤ endDate <;> simp [h1, h2, h3]
    by_cases h : r.commodity ∈ sel ∧ startDate ≤ r.date ∧ r.date ≤ endDate
    · rw [if_pos h, filterData]
      apply List.count_filter
      rw [hpred r]
      exact decide_eq_true h
    · rw [if_neg h]
      apply List.count_eq_zero.mpr
      intro hmem
      rw [filterData, List.mem_filter, hpred r] at hmem
      exact h (of_decide_eq_true hmem.2)

/-- C6: filtering is idempotent — filtering an already-filtered table with the
same parameters returns the same rows. -/
theorem c6_filter_idempotent (t : List Row) (sel : List String) (startDate endDate : Int) :
    filterData (filterData t sel startDate endDate) sel startDate endDate =
      filterData t sel startDate endDate := by
  simp only [filterData, List.filter_filter]
  apply List.filter_congr
  intro r _
  cases sel.contains r.commodity <;> cases decide (startDate ≤ r.date) <;>
    cases decide (r.date ≤ endDate) <;> rfl

theorem lexLtB_irrefl (a : List Char) : lexLtB a a = false := by
  induction a with
  | nil => rfl
  | cons c cs ih => simp [lexLtB, lt_irrefl, ih]

theorem lexLtB_asymm {a b : List Char} (h : lexLtB a b = true) : lexLtB b a = false := by
  induction a generalizing b with
  | nil =>
    cases b with
    | nil => simp [lexLtB] at h
    | cons d ds => simp [lexLtB]
  | cons c cs ih =>
    cases b with
    | nil => simp [lexLtB] at h
    | cons d ds =>
      by_cases hcd : c < d
      · simp [lexLtB, hcd, asymm hcd, lt_asymm hcd]
      · by_cases hdc : d < c
        · simp [lexLtB, hcd, hdc] at h
        · simp only [lexLtB, if_neg hcd, if_neg hdc] at h
          simp [lexLtB, hcd, hdc, ih h]

theorem lexLtB_trans {a b c : List Char} (hab : lexLtB a b = true) (hbc : lexLtB b c = true) :
    lexLtB a c = true := by
  induction a generalizing b c with
  | nil =>
    cases b with
    | nil => simp [lexLtB] at hab
    | cons d ds =>
      cases c with
      | nil => simp [lexLtB] at hbc
      | cons e es => simp [lexLtB]
  | cons x xs ih =>
    cases b with
    | nil => simp [lexLtB] at hab
    | cons d ds =>
      cases c with
      | nil => simp [lexLtB] at hbc
      | cons e es =>
        by_cases hxd : x < d
        · by_cases hde : d < e
          · simp [lexLtB, lt_trans hxd hde]
          · by_cases hed : e < d
            · simp [lexLtB, hxd, hde, hed] at hbc
            · have : d = e := le_antisymm (le_of_not_lt hed) (le_of_not_lt hde)
              subst this
              simp [lexLtB, hxd]
        · by_cases hdx : d < x
          · simp [lexLtB, hxd, hdx] at hab
          · have hxdeq : x = d := le_antisymm (le_of_not_lt hdx) (le_of_not_lt hxd)
            subst hxdeq
            simp only [lexLtB, if_neg hxd, if_neg hdx] at hab
            by_cases hxe : x < e
            · simp [lexLtB, hxe]
            · by_cases hex : e < x
              · simp [lexLtB, hxe, hex] at hbc
              · simp only [lexLtB, if_neg hxe, if_neg hex] at hbc ⊢
                exact ih hab hbc

theorem lexLtB_connex {a b : List Char} (hab : lexLtB a b = false) (hba : lexLtB b a = false) :
    a = b := by
  induction a generalizing b with
  | nil =>
    cases b with
    | nil => rfl
    | cons d ds => simp [lexLtB] at hab
  | cons c cs ih =>
    cases b with
    | nil => simp [lexLtB] at hba
    | cons d ds =>
      by_cases hcd : c < d
      · simp [lexLtB, hcd] at hab
      · by_cases hdc : d < c
        · simp [lexLtB, hdc] at hba
        · have hceq : c = d := le_antisymm (le_of_not_lt hdc) (le_of_not_lt hcd)
          subst hceq
          simp only [lexLtB, if_neg hcd, if_neg hdc] at hab hba
          rw [ih hab hba]

theorem strLtB_connex {a b : String} (hab : strLtB a b = false) (hba : strLtB b a = false) :
    a = b := by
  cases a with
  | mk da =>
    cases b with
    | mk db =>
      simp only [strLtB] at hab hba
      rw [lexLtB_connex hab hba]

/-- Lexicographic row order used by `sort_values(["commodity", "date"])`. -/
def rowLe (a b : Row) : Prop :=
  strLtB a.commodity b.commodity = true ∨ (a.commodity = b.commodity ∧ a.date ≤ b.date)

instance : DecidableRel rowLe := by
  intro a b
  unfold rowLe
  infer_instance

instance : IsTotal Row rowLe := by
  constructor
  intro a b
  by_cases hab : strLtB a.commodity b.commodity = true
  · exact Or.inl (Or.inl hab)
  · by_cases hba : strLtB b.commodity a.commodity = true
    · exact Or.inr (Or.inl hba)
    · have heq : a.commodity = b.commodity :=
        strLtB_connex (Bool.eq_false_iff.mpr (fun h => hab h) ▸ rfl) (by
          cases h : strLtB b.commodity a.commodity
          · rfl
          · exact absurd h hba)
      rcases le_total a.date b.date with hd | hd
      · exact Or.inl (Or.inr ⟨heq, hd⟩)
      · exact Or.inr (Or.inr ⟨heq.symm, hd⟩)

instance : IsTrans Row rowLe := by
  constructor
  intro a b c hab hbc
  rcases hab with h1 | ⟨h1, hd1⟩
  · rcases hbc with h2 | ⟨h2, hd2⟩
    · exact Or.inl (lexLtB_trans h1 h2)
    · exact Or.inl (h2 ▸ h1)
  · rcases hbc with h2 | ⟨h2, hd2⟩
    · exact Or.inl (h1 ▸ h2)
    · exact Or.inr ⟨h1.trans h2, hd1.trans hd2⟩

/-- Model of `sort_values(["commodity", "date"])` (a stable lexicographic
sort, as `numpy.lexsort` provides). -/
def sortTable (t : List Row) : List Row := List.insertionSort rowLe t

/-- A raw input row: the per-row cells relevant to `load_data`, with the
date and price cells recorded as their coercion outcome (`none` means the
cell was missing or unparseable). -/
structure RawRow where
  dateCell : Option Int
  commodityCell : String
  priceCell : Option Rat
  currencyCell : String
  unitCell : String
deriving DecidableEq, Repr

/-- A raw input table: the file's column names plus its rows. -/
structure RawTable where
  cols : List String
  rows : List RawRow
deriving DecidableEq, Repr

/-- The validation error raised by `load_data`: the missing required keys
and the (normalized) columns that were found. -/
structure LoadErr where
  missing : List String
  available : List String
deriving DecidableEq, Repr

/-- The required column keys of `load_data`. -/
def requiredCols : List String := ["date", "commodity", "price"]

/-- Normalization of the column names: `c.strip().lower()` for each. -/
def normCols (cols : List String) : List String := cols.map normName

/-- The required keys absent from the normalized columns. -/
def missingCols (cols : List String) : List String :=
  requiredCols.filter (fun k => !(cols.contains k))

/-- Coercion of one raw row, given the normalized column list: `none` when
the date or the price fails to parse (the row is dropped), otherwise the
loaded `Row` with trimmed strings, defaulted optional columns and derived
`year`/`month`. -/
def parseRawRow (cols : List String) (rr : RawRow) : Option Row :=
  match rr.dateCell, rr.priceCell with
  | some d, some p =>
      some { date := d
             commodity := stripStr rr.commodityCell
             price := p
             currency := if cols.contains "currency" then stripStr rr.currencyCell else "IDR"
             unit := if cols.contains "unit" then stripStr rr.unitCell else ""
             year := d / 10000
             month := d % 10000 / 100 }
  | _, _ => none

/-- Model of `load_data`: normalize column names, fail when a required key
is missing, otherwise coerce rows (dropping unparseable ones), apply
defaults, and sort by `(commodity, date)`. -/
def loadData (rt : RawTable) : Except LoadErr (List Row) :=
  if (missingCols (normCols rt.cols)).isEmpty then
    Except.ok (sortTable (rt.rows.filterMap (parseRawRow (normCols rt.cols))))
  else
    Except.error { missing := missingCols (normCols rt.cols), available := normCols rt.cols }

/-- Float percentage change `(cur / prev - 1) * 100`, with the float
behaviour at a zero previous value: `0/0` is NaN, `cur/0` is a signed
infinity. -/
def pctChange (prev cur : Rat) : FVal :=
  if prev = 0 then
    (if cur = 0 then FVal.nan else if 0 < cur then FVal.pinf else FVal.ninf)
  else FVal.val ((cur / prev - 1) * 100)

/-- Derived row built from a row and the list of prices of the *previous*
rows of the same commodity, most recent first: `pct_change(1)` reads the
first entry, `pct_change(12)` reads the twelfth. -/
def mkDRow (r : Row) (prevs : List Rat) : DRow :=
  { toRow := r
    mom_pct := match prevs.get? 0 with
      | none => FVal.nan
      | some p => pctChange p r.price
    yoy_pct := match prevs.get? 11 with
      | none => FVal.nan
      | some p => pctChange p r.price }

/-- Row-by-row annotation pass of `add_changes` over the sorted table;
`seenRev` holds the already-processed rows, most recent first. -/
def annotate (seenRev : List Row) : List Row → List DRow
  | [] => []
  | r :: rs =>
      mkDRow r ((seenRev.filter (fun x => decide (x.commodity = r.commodity))).map
          (fun x => x.price)) ::
        annotate (r :: seenRev) rs

/-- Model of `add_changes`: sort by `(commodity, date)` and add the
`mom_pct` (`groupby("commodity").pct_change(1) * 100`) and `yoy_pct`
(`pct_change(12) * 100`) columns. -/
def addChanges (t : List Row) : List DRow := annotate [] (sortTable t)

/-- Row of the sorted table at position `i` (default row out of range). -/
def sAt (t : List Row) (i : Nat) : Row := (sortTable t).getD i row0

/-- Row of the derived table `add_changes(t)` at position `i`. -/
def outAt (t : List Row) (i : Nat) : DRow := (addChanges t).getD i dRow0

/-- Chronological sequence of one commodity inside a table: the rows of the
table whose commodity is `c`, in table order. -/
def grpSeq (s : List Row) (c : String) : List Row :=
  s.filter (fun r => decide (r.commodity = c))

/-- Number of observations of commodity `c` among the first `i` rows. -/
def grpCnt (s : List Row) (c : String) (i : Nat) : Nat := (grpSeq (s.take i) c).length

/-- The row `k` positions earlier than position `i` inside the commodity
group of the row at `i` (in the sorted table). -/
def prevRowAt (t : List Row) (i k : Nat) : Row :=
  (grpSeq (sortTable t) (sAt t i).commodity).getD
    (grpCnt (sortTable t) (sAt t i).commodity i - k) row0

theorem annotate_length (seenRev l : List Row) : (annotate seenRev l).length = l.length := by
  induction l generalizing seenRev with
  | nil => rfl
  | cons r rs ih => simp [annotate, ih]

theorem annotate_get? (seenRev l : List Row) (i : Nat) :
    (annotate seenRev l).get? i = (l.get? i).map (fun r =>
      mkDRow r ((((l.take i).reverse ++ seenRev).filter
        (fun x => decide (x.commodity = r.commodity))).map (fun x => x.price))) := by
  induction l generalizing seenRev i with
  | nil => simp [annotate]
  | cons r rs ih =>
    cases i with
    | zero => simp [annotate]
    | succ j =>
      rw [annotate]
      show (annotate (r :: seenRev) rs).get? j = _
      rw [ih (r :: seenRev) j]
      simp [List.take_succ_cons, List.reverse_cons, List.append_assoc]

theorem addChanges_length (t : List Row) : (addChanges t).length = (sortTable t).length := by
  rw [addChanges, annotate_length]

theorem addChanges_get? (t : List Row) (i : Nat) :
    (addChanges t).get? i = ((sortTable t).get? i).map (fun r =>
      mkDRow r (((grpSeq ((sortTable t).take i) r.commodity).map (fun x => x.price)).reverse)) := by
  rw [addChanges, annotate_get?]
  congr 1
  funext r
  congr 1
  rw [List.append_nil, List.filter_reverse, List.map_reverse]
  rfl

theorem grpSeq_append (l1 l2 : List Row) (c : String) :
    grpSeq (l1 ++ l2) c = grpSeq l1 c ++ grpSeq l2 c := by
  simp [grpSeq, List.filter_append]

theorem grpSeq_split (s : List Row) (c : String) (i : Nat) :
    grpSeq s c = grpSeq (s.take i) c ++ grpSeq (s.drop i) c := by
  rw [← grpSeq_append, List.take_append_drop]

theorem grpCnt_le (s : List Row) (c : String) (i : Nat) :
    grpCnt s c i ≤ (grpSeq s c).length := by
  rw [grpCnt, grpSeq_split s c i, List.length_append]
  exact Nat.le_add_right _ _

theorem grpSeq_take_get? (s : List Row) (c : String) (i m : Nat) (hm : m < grpCnt s c i) :
    (grpSeq (s.take i) c).get? m = (grpSeq s c).get? m := by
  rw [grpSeq_split s c i, List.get?_eq_getElem?, List.get?_eq_getElem?, List.getElem?_append]
  have hm' : m < (grpSeq (s.take i) c).length := hm
  rw [if_pos hm']

theorem grpSeq_get?_self (s : List Row) (i : Nat) (hi : i < s.length) :
    (grpSeq s (s.getD i row0).commodity).get? (grpCnt s (s.getD i row0).commodity i) =
      some (s.getD i row0) := by
  have hgd : s.getD i row0 = s[i] := by
    rw [List.getD_eq_getElem?_getD, List.getElem?_eq_getElem hi]
    rfl
  rw [grpSeq_split s _ i, List.get?_eq_getElem?]
  have hp : grpCnt s (s.getD i row0).commodity i =
      (grpSeq (s.take i) (s.getD i row0).commodity).length := rfl
  rw [hp, List.getElem?_append_right (Nat.le_refl _), Nat.sub_self]
  rw [List.drop_eq_getElem_cons hi]
  have : grpSeq (s[i] :: s.drop (i + 1)) (s.getD i row0).commodity =
      s[i] :: grpSeq (s.drop (i + 1)) (s.getD i row0).commodity := by
    rw [grpSeq, List.filter_cons_of_pos]
    · rfl
    · rw [hgd]
      simp
  rw [this, hgd]
  exact List.getElem?_cons_zero

theorem prevs_reverse_get? (s : List Row) (c : String) (i k : Nat) :
    ((grpSeq (s.take i) c).map (fun x => x.price)).reverse.get? k =
      if k < grpCnt s c i then
        some (((grpSeq s c).getD (grpCnt s c i - 1 - k) row0).price)
      else none := by
  have hlen : ((grpSeq (s.take i) c).map (fun x => x.price)).length = grpCnt s c i := by
    rw [List.length_map]
    rfl
  by_cases hk : k < grpCnt s c i
  · rw [if_pos hk, List.get?_eq_getElem?, List.getElem?_reverse (by rw [hlen]; exact hk), hlen]
    rw [List.getElem?_map]
    have hsub : grpCnt s c i - 1 - k < grpCnt s c i := by omega
    have := grpSeq_take_get? s c i (grpCnt s c i - 1 - k) hsub
    rw [List.get?_eq_getElem?, List.get?_eq_getElem?] at this
    rw [this]
    have hlt : grpCnt s c i - 1 - k < (grpSeq s c).length :=
      lt_of_lt_of_le hsub (grpCnt_le s c i)
    rw [List.getElem?_eq_getElem hlt]
    rw [List.getD_eq_getElem?_getD, List.getElem?_eq_getElem hlt]
    rfl
  · rw [if_neg hk, List.get?_eq_getElem?, List.getElem?_eq_none]
    rw [List.length_reverse, hlen]
    omega

theorem outAt_eq_mkDRow (t : List Row) (i : Nat) (hi : i < (sortTable t).length) :
    outAt t i = mkDRow (sAt t i)
      (((grpSeq ((sortTable t).take i) (sAt t i).commodity).map (fun x => x.price)).reverse) := by
  have hlen : i < (addChanges t).length := by
    rw [addChanges_length]
    exact hi
  have h1 : (addChanges t).get? i = some (outAt t i) := by
    rw [outAt, List.getD_eq_getElem?_getD, List.get?_eq_getElem?, List.getElem?_eq_getElem hlen]
    rfl
  have h2 : (sortTable t).get? i = some (sAt t i) := by
    rw [sAt, List.getD_eq_getElem?_getD, List.get?_eq_getElem?, List.getElem?_eq_getElem hi]
    rfl
  have hmain := addChanges_get? t i
  rw [h1, h2] at hmain
  exact Option.some.inj hmain

theorem outAt_mom (t : List Row) (i : Nat) (hi : i < (sortTable t).length) :
    (outAt t i).mom_pct =
      if 1 ≤ grpCnt (sortTable t) (sAt t i).commodity i then
        pctChange (prevRowAt t i 1).price (sAt t i).price
      else FVal.nan := by
  rw [outAt_eq_mkDRow t i hi, mkDRow]
  simp only []
  rw [prevs_reverse_get? (sortTable t) (sAt t i).commodity i 0]
  by_cases hp : 1 ≤ grpCnt (sortTable t) (sAt t i).commodity i
  · rw [if_pos (by omega : 0 < grpCnt (sortTable t) (sAt t i).commodity i), if_pos hp]
    rw [prevRowAt]
    have : grpCnt (sortTable t) (sAt t i).commodity i - 1 - 0 =
        grpCnt (sortTable t) (sAt t i).commodity i - 1 := by omega
    rw [this]
  · rw [if_neg (by omega), if_neg hp]

theorem outAt_yoy (t : List Row) (i : Nat) (hi : i < (sortTable t).length) :
    (outAt t i).yoy_pct =
      if 12 ≤ grpCnt (sortTable t) (sAt t i).commodity i then
        pctChange (prevRowAt t i 12).price (sAt t i).price
      else FVal.nan := by
  rw [outAt_eq_mkDRow t i hi, mkDRow]
  simp only []
  rw [prevs_reverse_get? (sortTable t) (sAt t i).commodity i 11]
  by_cases hp : 12 ≤ grpCnt (sortTable t) (sAt t i).commodity i
  · rw [if_pos (by omega : 11 < grpCnt (sortTable t) (sAt t i).commodity i), if_pos hp]
    rw [prevRowAt]
    have : grpCnt (sortTable t) (sAt t i).commodity i - 1 - 11 =
        grpCnt (sortTable t) (sAt t i).commodity i - 12 := by omega
    rw [this]
  · rw [if_neg (by omega), if_neg hp]

theorem pctChange_ne_nan (prev cur : Rat) :
    pctChange prev cur ≠ FVal.nan ↔ ¬(prev = 0 ∧ cur = 0) := by
  rw [pctChange]
  by_cases hp : prev = 0
  · by_cases hc : cur = 0
    · simp [hp, hc]
    · rcases lt_trichotomy cur 0 with h | h | h
      · simp [hp, hc, not_lt_of_gt h]
      · exact absurd h hc
      · simp [hp, hc, h]
  · simp [hp]

theorem grpCnt_succ (s : List Row) (c : String) (i : Nat) (hi : i < s.length) :
    grpCnt s c (i + 1) =
      grpCnt s c i + (if (s.getD i row0).commodity = c then 1 else 0) := by
  have hgd : s.getD i row0 = s[i] := by
    rw [List.getD_eq_getElem?_getD, List.getElem?_eq_getElem hi]
    rfl
  rw [grpCnt, grpCnt, List.take_succ, List.getElem?_eq_getElem hi]
  rw [grpSeq_append]
  rw [List.length_append]
  congr 1
  rw [hgd]
  by_cases h : (s[i] : Row).commodity = c
  · rw [if_pos h]
    simp [grpSeq, h]
  · rw [if_neg h]
    simp [grpSeq, h]

theorem sortTable_sorted (t : List Row) : List.Sorted rowLe (sortTable t) :=
  List.sorted_insertionSort rowLe t

theorem sortTable_perm (t : List Row) : List.Perm (sortTable t) t :=
  List.perm_insertionSort rowLe t

/-- C2 (amended): in the derived table, `mom_pct` is defined (non-NaN) iff the
commodity has at least 2 chronologically ordered observations up to and
including the row's position *and* the compared pair of prices is not zero
over zero; `yoy_pct` likewise with 13 observations and the row 12 positions
earlier. (The original claim omits the zero-over-zero proviso.) -/
theorem c2_mom_yoy_defined (t : List Row) (i : Nat) (hi : i < (sortTable t).length) :
    ((outAt t i).mom_pct ≠ FVal.nan ↔
      (2 ≤ grpCnt (sortTable t) (sAt t i).commodity (i + 1) ∧
        ¬((prevRowAt t i 1).price = 0 ∧ (sAt t i).price = 0))) ∧
    ((outAt t i).yoy_pct ≠ FVal.nan ↔
      (13 ≤ grpCnt (sortTable t) (sAt t i).commodity (i + 1) ∧
        ¬((prevRowAt t i 12).price = 0 ∧ (sAt t i).price = 0))) := by
  have hcond : ((sortTable t).getD i row0).commodity = (sAt t i).commodity := rfl
  have hsucc : grpCnt (sortTable t) (sAt t i).commodity (i + 1) =
      grpCnt (sortTable t) (sAt t i).commodity i + 1 := by
    rw [grpCnt_succ _ _ _ hi, if_pos hcond]
  constructor
  · rw [outAt_mom t i hi, hsucc]
    by_cases hp : 1 ≤ grpCnt (sortTable t) (sAt t i).commodity i
    · rw [if_pos hp, pctChange_ne_nan]
      constructor
      · intro h
        exact ⟨by omega, h⟩
      · intro h
        exact h.2
    · rw [if_neg hp]
      constructor
      · intro h
        exact absurd rfl h
      · intro h
        have h1 := h.1
        omega
  · rw [outAt_yoy t i hi, hsucc]
    by_cases hp : 12 ≤ grpCnt (sortTable t) (sAt t i).commodity i
    · rw [if_pos hp, pctChange_ne_nan]
      constructor
      · intro h
        exact ⟨by omega, h⟩
      · intro h
        exact h.2
    · rw [if_neg hp]
      constructor
      · intro h
        exact absurd rfl h
      · intro h
        have h1 := h.1
        omega

theorem adjacent_prev_core (s : List Row) (hsorted : List.Pairwise rowLe s)
    (A B : Row) (hA : A ∈ s) (hcom : A.commodity = B.commodity)
    (hnd : ((grpSeq s B.commodity).map (fun r => r.date)).Nodup)
    (hdate : A.date < B.date)
    (hbetween : ∀ C ∈ s, C.commodity = B.commodity → ¬(A.date < C.date ∧ C.date < B.date))
    (i : Nat) (hi : i < s.length) (hiB : s.getD i row0 = B) :
    1 ≤ grpCnt s B.commodity i ∧
      (grpSeq s B.commodity).getD (grpCnt s B.commodity i - 1) row0 = A := by
  have hgpw : List.Pairwise rowLe (grpSeq s B.commodity) := hsorted.filter _
  have hnd' : List.Pairwise (fun a b : Int => a ≠ b)
      ((grpSeq s B.commodity).map (fun r => r.date)) := hnd
  have hne : List.Pairwise (fun a b : Row => a.date ≠ b.date) (grpSeq s B.commodity) :=
    List.pairwise_map.mp hnd'
  have hcg : ∀ x ∈ grpSeq s B.commodity, x.commodity = B.commodity := by
    intro x hx
    exact of_decide_eq_true (List.mem_filter.mp hx).2
  have hmemg : ∀ x ∈ grpSeq s B.commodity, x ∈ s := by
    intro x hx
    exact (List.mem_filter.mp hx).1
  have hlt : ∀ x y : Fin (grpSeq s B.commodity).length, x < y →
      ((grpSeq s B.commodity).get x).date < ((grpSeq s B.commodity).get y).date := by
    intro x y hxy
    have h1 := List.pairwise_iff_get.mp hgpw x y hxy
    have h2 := List.pairwise_iff_get.mp hne x y hxy
    rcases h1 with h1 | h1
    · exfalso
      rw [hcg _ (List.get_mem _ _ _), hcg _ (List.get_mem _ _ _)] at h1
      rw [strLtB, lexLtB_irrefl] at h1
      exact Bool.false_ne_true h1
    · exact lt_of_le_of_ne h1.2 h2
  have hpB : (grpSeq s B.commodity).get? (grpCnt s B.commodity i) = some B := by
    have h0 := grpSeq_get?_self s i hi
    rw [hiB] at h0
    exact h0
  obtain ⟨hpBlt, hgetB⟩ := List.get?_eq_some.mp hpB
  have hAg : A ∈ grpSeq s B.commodity := by
    rw [grpSeq, List.mem_filter]
    exact ⟨hA, decide_eq_true hcom⟩
  obtain ⟨q, hq⟩ := List.mem_iff_get.mp hAg
  have hqp : (q : Nat) < grpCnt s B.commodity i := by
    rcases Nat.lt_trichotomy (q : Nat) (grpCnt s B.commodity i) with h | h | h
    · exact h
    · exfalso
      have hAB : A = B := by
        have hsame : (grpSeq s B.commodity).get q =
            (grpSeq s B.commodity).get ⟨grpCnt s B.commodity i, hpBlt⟩ := by
          congr 1
          exact Fin.ext h
        rw [hq, hgetB] at hsame
        exact hsame
      rw [hAB] at hdate
      exact lt_irrefl _ hdate
    · exfalso
      have hfin : (⟨grpCnt s B.commodity i, hpBlt⟩ :
          Fin (grpSeq s B.commodity).length) < q := by
        rw [Fin.lt_def]
        exact h
      have hBA := hlt _ _ hfin
      rw [hgetB, hq] at hBA
      exact lt_asymm hdate hBA
  have hp1 : 1 ≤ grpCnt s B.commodity i := by omega
  refine ⟨hp1, ?_⟩
  have hpm1lt : grpCnt s B.commodity i - 1 < (grpSeq s B.commodity).length := by omega
  have hgetD : (grpSeq s B.commodity).getD (grpCnt s B.commodity i - 1) row0 =
      (grpSeq s B.commodity).get ⟨grpCnt s B.commodity i - 1, hpm1lt⟩ := by
    rw [List.getD_eq_getElem?_getD, List.getElem?_eq_getElem hpm1lt]
    rfl
  rw [hgetD]
  by_cases hqeq : (q : Nat) = grpCnt s B.commodity i - 1
  · rw [← hq]
    congr 1
    exact Fin.ext hqeq.symm
  · exfalso
    have hqlt : (q : Nat) < grpCnt s B.commodity i - 1 := by omega
    have hfin1 : q < (⟨grpCnt s B.commodity i - 1, hpm1lt⟩ :
        Fin (grpSeq s B.commodity).length) := by
      rw [Fin.lt_def]
      exact hqlt
    have hfin2 : (⟨grpCnt s B.commodity i - 1, hpm1lt⟩ :
        Fin (grpSeq s B.commodity).length) <
        ⟨grpCnt s B.commodity i, hpBlt⟩ :=
      Fin.mk_lt_mk.mpr (by omega)
    have h1 := hlt _ _ hfin1
    have h2 := hlt _ _ hfin2
    rw [hq] at h1
    rw [hgetB] at h2
    exact hbetween ((grpSeq s B.commodity).get ⟨grpCnt s B.commodity i - 1, hpm1lt⟩)
      (hmemg _ (List.get_mem _ _ _)) (hcg _ (List.get_mem _ _ _)) ⟨h1, h2⟩

theorem adjacent_prev (t : List Row)
    (hnd : ∀ c : String, ((grpSeq t c).map (fun r => r.date)).Nodup)
    (A B : Row) (hA : A ∈ t) (hcom : A.commodity = B.commodity)
    (hdate : A.date < B.date)
    (hbetween : ∀ C ∈ t, C.commodity = B.commodity → ¬(A.date < C.date ∧ C.date < B.date))
    (i : Nat) (hi : i < (sortTable t).length) (hiB : sAt t i = B) :
    1 ≤ grpCnt (sortTable t) B.commodity i ∧ prevRowAt t i 1 = A := by
  have hA' : A ∈ sortTable t := (sortTable_perm t).mem_iff.mpr hA
  have hnd' : ((grpSeq (sortTable t) B.commodity).map (fun r => r.date)).Nodup := by
    have hgp : List.Perm (grpSeq (sortTable t) B.commodity) (grpSeq t B.commodity) :=
      (sortTable_perm t).filter _
    exact ((hgp.map (fun r => r.date)).nodup_iff).mpr (hnd B.commodity)
  have hbetween' : ∀ C ∈ sortTable t, C.commodity = B.commodity →
      ¬(A.date < C.date ∧ C.date < B.date) := by
    intro C hC
    exact hbetween C ((sortTable_perm t).mem_iff.mp hC)
  have hcore := adjacent_prev_core (sortTable t) (sortTable_sorted t) A B hA' hcom hnd'
    hdate hbetween' i hi hiB
  refine ⟨hcore.1, ?_⟩
  rw [prevRowAt, hiB]
  exact hcore.2

/-- C1 (amended): percentage change is computed per commodity group. For a row
whose commodity has `p` earlier observations in the sorted table: when
`p ≥ 1` and the immediately preceding observation's price is nonzero,
`mom_pct = (cur / prev - 1) * 100`; when `p ≥ 12` and the observation 12
positions earlier has nonzero price, `yoy_pct` is the analogous ratio; and
for two observations `A`, `B` of the same commodity with `A.date < B.date`
and no observation of that commodity strictly between, `B`'s `mom_pct` is
`(B.price / A.price - 1) * 100` — the last part *provided* the commodity's
dates are pairwise distinct and `A.price ≠ 0` (tied dates make "the"
predecessor ambiguous, which the original claim overlooks). -/
theorem c1_pct_change_per_group (t : List Row) :
    (∀ i : Nat, i < (sortTable t).length →
      1 ≤ grpCnt (sortTable t) (sAt t i).commodity i →
      (prevRowAt t i 1).price ≠ 0 →
      (outAt t i).mom_pct =
        FVal.val (((sAt t i).price / (prevRowAt t i 1).price - 1) * 100)) ∧
    (∀ i : Nat, i < (sortTable t).length →
      12 ≤ grpCnt (sortTable t) (sAt t i).commodity i →
      (prevRowAt t i 12).price ≠ 0 →
      (outAt t i).yoy_pct =
        FVal.val (((sAt t i).price / (prevRowAt t i 12).price - 1) * 100)) ∧
    (∀ A B : Row,
      (∀ c : String, ((grpSeq t c).map (fun r => r.date)).Nodup) →
      A ∈ t → B ∈ t → A.commodity = B.commodity → A.date < B.date →
      (∀ C ∈ t, C.commodity = B.commodity → ¬(A.date < C.date ∧ C.date < B.date)) →
      A.price ≠ 0 →
      ∀ i : Nat, i < (sortTable t).length → sAt t i = B →
      (outAt t i).mom_pct = FVal.val ((B.price / A.price - 1) * 100)) := by
  refine ⟨?_, ?_, ?_⟩
  · intro i hi hp hprev
    rw [outAt_mom t i hi, if_pos hp, pctChange, if_neg hprev]
  · intro i hi hp hprev
    rw [outAt_yoy t i hi, if_pos hp, pctChange, if_neg hprev]
  · intro A B hnd hA hB hcom hdate hbetween hAp i hi hiB
    obtain ⟨hp1, hprevA⟩ := adjacent_prev t hnd A B hA hcom hdate hbetween i hi hiB
    have hp1' : 1 ≤ grpCnt (sortTable t) (sAt t i).commodity i := by
      rw [hiB]
      exact hp1
    rw [outAt_mom t i hi, if_pos hp1', hprevA, pctChange, if_neg hAp, hiB]

/-- First observation of the C1 counterexample table (date `1`, price `100`). -/
def cexA : Row :=
  { date := 1, commodity := "c", price := 100, currency := "IDR", unit := "", year := 0, month := 1 }

/-- A second observation sharing `cexA`'s date but with price `50`. -/
def cexC : Row :=
  { date := 1, commodity := "c", price := 50, currency := "IDR", unit := "", year := 0, month := 1 }

/-- The later observation of the C1 counterexample table (date `2`, price `110`). -/
def cexB : Row :=
  { date := 2, commodity := "c", price := 110, currency := "IDR", unit := "", year := 0, month := 2 }

/-- C1 counterexample table: two observations tied on date, then a later one. -/
def cexT1 : List Row := [cexA, cexC, cexB]

/-- C1 counterexample: all hypotheses of the claim's `A`/`B` clause hold for
`cexA`/`cexB` (`cexA.date < cexB.date`, no observation of the commodity
strictly between), yet `cexB`'s row does not get
`(cexB.price / cexA.price - 1) * 100 = 10`: the tied-date row `cexC` is the
positional predecessor, so the result is `120`. -/
theorem c1_counterexample :
    (cexA ∈ cexT1 ∧ cexB ∈ cexT1 ∧ cexA.commodity = cexB.commodity ∧
      cexA.date < cexB.date ∧
      (∀ C ∈ cexT1, C.commodity = cexB.commodity →
        ¬(cexA.date < C.date ∧ C.date < cexB.date)) ∧
      sAt cexT1 2 = cexB) ∧
    (outAt cexT1 2).mom_pct ≠ FVal.val ((cexB.price / cexA.price - 1) * 100) := by
  refine ⟨⟨by decide, by decide, rfl, by decide, by decide, by decide⟩, ?_⟩
  have hmom : (outAt cexT1 2).mom_pct =
      pctChange (prevRowAt cexT1 2 1).price (sAt cexT1 2).price := by
    rw [outAt_mom cexT1 2 (by decide), if_pos (by decide)]
  have hprev : (prevRowAt cexT1 2 1).price = 50 := by decide
  have hcur : (sAt cexT1 2).price = 110 := by decide
  rw [hmom, hprev, hcur, pctChange, if_neg (by norm_num)]
  simp only [ne_eq, FVal.val.injEq, cexB, cexA]
  norm_num

/-- C2 counterexample table: one commodity, two observations, both prices `0`. -/
def cexT2 : List Row :=
  [{ date := 1, commodity := "z", price := 0, currency := "IDR", unit := "", year := 0, month := 1 },
   { date := 2, commodity := "z", price := 0, currency := "IDR", unit := "", year := 0, month := 2 }]

/-- C2 counterexample: at the second observation the commodity has exactly 2
chronologically ordered observations up to and including that position, yet
`mom_pct` is NaN (the float `0/0`), refuting the claimed "defined iff at
least 2 observations" equivalence. -/
theorem c2_counterexample :
    ¬(((outAt cexT2 1).mom_pct ≠ FVal.nan) ↔
      2 ≤ grpCnt (sortTable cexT2) (sAt cexT2 1).commodity (1 + 1)) := by
  decide

/-- A row of the witness table for C1: commodity `"a"`, date `n`, price `1`. -/
def wRow (n : Int) : Row :=
  { date := n, commodity := "a", price := 1, currency := "IDR", unit := "", year := 0, month := 0 }

/-- Witness table for C1: thirteen monthly observations of one commodity. -/
def w13 : List Row :=
  [wRow 1, wRow 2, wRow 3, wRow 4, wRow 5, wRow 6, wRow 7, wRow 8, wRow 9,
   wRow 10, wRow 11, wRow 12, wRow 13]

/-- Witness for C1: instantiates all three clauses of the amended claim on
the thirteen-row table, discharging every hypothesis concretely. -/
theorem c1_witness :
    (outAt w13 12).mom_pct =
      FVal.val (((sAt w13 12).price / (prevRowAt w13 12 1).price - 1) * 100) ∧
    (outAt w13 12).yoy_pct =
      FVal.val (((sAt w13 12).price / (prevRowAt w13 12 12).price - 1) * 100) ∧
    (outAt w13 1).mom_pct = FVal.val (((wRow 2).price / (wRow 1).price - 1) * 100) := by
  have hnd : ∀ c : String, ((grpSeq w13 c).map (fun r => r.date)).Nodup := by
    intro c
    have hsub : List.Sublist ((grpSeq w13 c).map (fun r => r.date))
        (w13.map (fun r => r.date)) := (List.filter_sublist _).map _
    exact List.Nodup.sublist hsub (by decide)
  refine ⟨(c1_pct_change_per_group w13).1 12 (by decide) (by decide) (by decide),
    (c1_pct_change_per_group w13).2.1 12 (by decide) (by decide) (by decide),
    (c1_pct_change_per_group w13).2.2 (wRow 1) (wRow 2) hnd (by decide) (by decide) rfl
      (by decide) (by decide) (by decide) 1 (by decide) (by decide)⟩

/-- Witness table for C2: one commodity, two observations, nonzero prices. -/
def w2 : List Row :=
  [{ date := 1, commodity := "b", price := 4, currency := "IDR", unit := "", year := 0, month := 1 },
   { date := 2, commodity := "b", price := 5, currency := "IDR", unit := "", year := 0, month := 2 }]

/-- Witness for C2: instantiates the amended definedness equivalence at the
second row of a two-observation table. -/
theorem c2_witness :
    ((outAt w2 1).mom_pct ≠ FVal.nan ↔
      (2 ≤ grpCnt (sortTable w2) (sAt w2 1).commodity (1 + 1) ∧
        ¬((prevRowAt w2 1 1).price = 0 ∧ (sAt w2 1).price = 0))) ∧
    ((outAt w2 1).yoy_pct ≠ FVal.nan ↔
      (13 ≤ grpCnt (sortTable w2) (sAt w2 1).commodity (1 + 1) ∧
        ¬((prevRowAt w2 1 12).price = 0 ∧ (sAt w2 1).price = 0))) :=
  c2_mom_yoy_defined w2 1 (by decide)

/-- C3: `load_data` fails with a validation error iff one of the required
keys `{date, commodity, price}` is absent after case/whitespace
normalization of the column names, and the error names exactly the missing
keys and the set of normalized columns that were found. -/
theorem c3_load_validation (rt : RawTable) :
    ((∃ e : LoadErr, loadData rt = Except.error e) ↔
      ¬(∀ k ∈ requiredCols, k ∈ normCols rt.cols)) ∧
    (∀ e : LoadErr, loadData rt = Except.error e →
      ((∀ k : String, k ∈ e.missing ↔ (k ∈ requiredCols ∧ k ∉ normCols rt.cols)) ∧
        e.available = normCols rt.cols)) := by
  by_cases hm : (missingCols (normCols rt.cols)).isEmpty
  · have hok : loadData rt =
        Except.ok (sortTable (rt.rows.filterMap (parseRawRow (normCols rt.cols)))) := by
      rw [loadData, if_pos hm]
    have hnil : missingCols (normCols rt.cols) = [] := List.isEmpty_iff.mp hm
    constructor
    · constructor
      · rintro ⟨e, he⟩
        rw [hok] at he
        exact absurd he (by simp)
      · intro hall
        exfalso
        apply hall
        intro k hk
        have hkf := List.filter_eq_nil_iff.mp (by rw [← missingCols]; exact hnil) k hk
        simpa using hkf
    · intro e he
      rw [hok] at he
      exact absurd he (by simp)
  · have herr : loadData rt = Except.error
        { missing := missingCols (normCols rt.cols), available := normCols rt.cols } := by
      rw [loadData, if_neg hm]
    have hne : missingCols (normCols rt.cols) ≠ [] := by
      intro h
      apply hm
      rw [h]
      rfl
    constructor
    · constructor
      · rintro ⟨e, _⟩
        intro hall
        obtain ⟨k, hk⟩ := List.exists_mem_of_ne_nil _ hne
        rw [missingCols, List.mem_filter] at hk
        have hnotmem : k ∉ normCols rt.cols := by simpa using hk.2
        exact hnotmem (hall k hk.1)
      · intro _
        exact ⟨_, herr⟩
    · intro e he
      rw [herr] at he
      have he' : LoadErr.mk (missingCols (normCols rt.cols)) (normCols rt.cols) = e :=
        Except.error.inj he
      rw [← he']
      constructor
      · intro k
        simp [missingCols, List.mem_filter]
      · rfl

/-- C4: when the required columns are present, `load_data` never fails on
row content: it returns a table whose rows are exactly (as a multiset) the
coercions of the raw rows on which both the date and the price parse; a raw
row is retained iff both cells parse. -/
theorem c4_row_level_drops (rt : RawTable)
    (hreq : ∀ k ∈ requiredCols, k ∈ normCols rt.cols) :
    (∃ out : List Row, loadData rt = Except.ok out) ∧
    (∀ out : List Row, loadData rt = Except.ok out →
      List.Perm out (rt.rows.filterMap (parseRawRow (normCols rt.cols)))) ∧
    (∀ rr ∈ rt.rows, ((parseRawRow (normCols rt.cols) rr).isSome ↔
      (rr.dateCell.isSome ∧ rr.priceCell.isSome))) := by
  have hnil : missingCols (normCols rt.cols) = [] := by
    rw [missingCols, List.filter_eq_nil_iff]
    intro k hk
    simpa using hreq k hk
  have hm : (missingCols (normCols rt.cols)).isEmpty := by
    rw [hnil]
    rfl
  have hok : loadData rt =
      Except.ok (sortTable (rt.rows.filterMap (parseRawRow (normCols rt.cols)))) := by
    rw [loadData, if_pos hm]
  refine ⟨⟨_, hok⟩, ?_, ?_⟩
  · intro out hout
    rw [hok] at hout
    have : sortTable (rt.rows.filterMap (parseRawRow (normCols rt.cols))) = out :=
      Except.ok.inj hout
    rw [← this]
    exact sortTable_perm _
  · intro rr _
    rw [parseRawRow]
    rcases hd : rr.dateCell with _ | d <;> rcases hp : rr.priceCell with _ | p <;> simp

/-- Sorted distinct years present in a table: the options of the pivot-year
`selectbox`. -/
def yearsOf (t : List Row) : List Int :=
  List.insertionSort (fun a b : Int => a ≤ b) ((t.map (fun r => r.year)).dedup)

/-- Model of the default pivot-year index computation
`years.index(2021) if 2020 in years else 0`: Python's `list.index` raises
`ValueError` when the item is absent, modelled as `none`. -/
def defaultIdx (years : List Int) : Option Nat :=
  if (2020 : Int) ∈ years then years.findIdx? (fun y => decide (y = 2021)) else some 0

/-- C10 failing table: a non-empty filtered table whose distinct years are
2020 and 2022. -/
def cexT10 : List Row :=
  [{ date := 20200101, commodity := "c", price := 1, currency := "IDR", unit := "",
     year := 2020, month := 1 },
   { date := 20220101, commodity := "c", price := 1, currency := "IDR", unit := "",
     year := 2022, month := 1 }]

/-- C10 (code bug): on a non-empty table whose year list contains 2020 but
not 2021, the guard `2020 in years` passes while `years.index(2021)`
raises, so the default-index computation is not total: the model returns
`none` (the raised `ValueError`). -/
theorem c10_default_pivot_raises :
    cexT10 ≠ [] ∧ (2020 : Int) ∈ yearsOf cexT10 ∧ (2021 : Int) ∉ yearsOf cexT10 ∧
      defaultIdx (yearsOf cexT10) = none := by
  decide

/-- Witness input for C3: a file whose columns are `Date` and ` Commodity `
(no price column). -/
def rtEx3 : RawTable := { cols := ["Date", " Commodity "], rows := [] }

/-- Witness for C3: loading `rtEx3` fails and the error names exactly
`price` as missing together with the normalized columns found. -/
theorem c3_witness :
    ("price" ∈ (LoadErr.mk ["price"] ["date", "commodity"]).missing ↔
      ("price" ∈ requiredCols ∧ "price" ∉ normCols rtEx3.cols)) ∧
    (LoadErr.mk ["price"] ["date", "commodity"]).available = normCols rtEx3.cols := by
  have h := (c3_load_validation rtEx3).2 (LoadErr.mk ["price"] ["date", "commodity"]) rfl
  exact ⟨h.1 "price", h.2⟩

/-- A raw row whose date cell fails to parse. -/
def rrBadDate : RawRow :=
  { dateCell := none, commodityCell := "Rice", priceCell := some 10,
    currencyCell := "IDR", unitCell := "Kg" }

/-- Witness input for C4: all required columns present, one parseable row,
one row with an unparseable date, one with an unparseable price. -/
def rtEx4 : RawTable :=
  { cols := ["date", "commodity", "price", "currency", "unit"],
    rows := [{ dateCell := some 20230101, commodityCell := "Rice", priceCell := some 10,
               currencyCell := "IDR", unitCell := "Kg" },
             rrBadDate,
             { dateCell := some 20230301, commodityCell := "Rice", priceCell := none,
               currencyCell := "IDR", unitCell := "Kg" }] }

/-- Witness for C4: the load succeeds on `rtEx4`, and the bad-date row is
recognized as dropped (not parseable) exactly because its date cell fails. -/
theorem c4_witness :
    (∃ out : List Row, loadData rtEx4 = Except.ok out) ∧
    ((parseRawRow (normCols rtEx4.cols) rrBadDate).isSome ↔
      (rrBadDate.dateCell.isSome ∧ rrBadDate.priceCell.isSome)) := by
  have hreq : ∀ k ∈ requiredCols, k ∈ normCols rtEx4.cols := by decide
  exact ⟨(c4_row_level_drops rtEx4 hreq).1,
    (c4_row_level_drops rtEx4 hreq).2.2 rrBadDate (by decide)⟩

/-- Phase label of the before/after panel. -/
inductive Fase : Type where
  | sebelum : Fase
  | sesudah : Fase
deriving DecidableEq, Repr

/-- Phase assignment `np.where(year < pivot, "Sebelum", "Sesudah")`. -/
def faseOf (pivot : Int) (r : Row) : Fase :=
  if r.year < pivot then Fase.sebelum else Fase.sesudah

/-- Model of the panel's `tmp` frame: each row labelled with its phase, the
rows at the pivot year removed. -/
def tmpRows (t : List Row) (pivot : Int) : List (Row × Fase) :=
  (t.map (fun r => (r, faseOf pivot r))).filter (fun rf => decide (rf.1.year ≠ pivot))

/-- Prices of one `(commodity, phase)` group. -/
def phasePrices (t : List Row) (pivot : Int) (c : String) (f : Fase) : List Rat :=
  ((tmpRows t pivot).filter
    (fun rf => decide (rf.1.commodity = c) && decide (rf.2 = f))).map (fun rf => rf.1.price)

/-- Mean price of one `(commodity, phase)` group; `none` when the group has
no rows (the NaN cell of the left-merged grid). -/
def meanPrice (t : List Row) (pivot : Int) (c : String) (f : Fase) : Option Rat :=
  if phasePrices t pivot c f = [] then none
  else some ((phasePrices t pivot c f).sum / ((phasePrices t pivot c f).length : Rat))

/-- Sorted distinct commodities of the pivot-stripped frame (`all_comms`). -/
def commsAfterPivot (t : List Row) (pivot : Int) : List String :=
  List.insertionSort (fun a b => strLeB a b = true)
    (((tmpRows t pivot).map (fun rf => rf.1.commodity)).dedup)

/-- Grid rows for a list of commodities: one `Sebelum` and one `Sesudah`
entry per commodity, holding the (possibly missing) mean. -/
def aggOf (t : List Row) (pivot : Int) (l : List String) : List (String × Fase × Option Rat) :=
  l.foldr (fun c acc =>
    (c, Fase.sebelum, meanPrice t pivot c Fase.sebelum) ::
    (c, Fase.sesudah, meanPrice t pivot c Fase.sesudah) :: acc) []

/-- Model of `agg_full`: the complete commodity times phase grid obtained by
left-merging the group means onto the full grid. -/
def aggFull (t : List Row) (pivot : Int) : List (String × Fase × Option Rat) :=
  aggOf t pivot (commsAfterPivot t pivot)

/-- Model of the `Perubahan` column: percentage change from the before-mean
to the after-mean, `none` when either mean is missing or the before-mean is
zero (the `replace({0: np.nan})` guard). The final rounding to two decimal
places for display is not modelled; it does not affect definedness. -/
def perubahanPct (t : List Row) (pivot : Int) (c : String) : Option Rat :=
  match meanPrice t pivot c Fase.sebelum, meanPrice t pivot c Fase.sesudah with
  | some b, some a => if b = 0 then none else some ((a - b) / b * 100)
  | _, _ => none

theorem aggOf_mem (t : List Row) (pivot : Int) (l : List String) :
    ∀ c ∈ l, (c, Fase.sebelum, meanPrice t pivot c Fase.sebelum) ∈ aggOf t pivot l ∧
      (c, Fase.sesudah, meanPrice t pivot c Fase.sesudah) ∈ aggOf t pivot l := by
  induction l with
  | nil => simp
  | cons d ds ih =>
    intro c hc
    rcases List.mem_cons.mp hc with h | h
    · subst h
      constructor
      · exact List.mem_cons_self _ _
      · exact List.mem_cons.mpr (Or.inr (List.mem_cons_self _ _))
    · obtain ⟨h1, h2⟩ := ih c h
      constructor
      · exact List.mem_cons.mpr (Or.inr (List.mem_cons.mpr (Or.inr h1)))
      · exact List.mem_cons.mpr (Or.inr (List.mem_cons.mpr (Or.inr h2)))

/-- C8: the before/after panel excludes the pivot year, labels `year < pivot`
as the before phase and `year > pivot` as the after phase, produces a
complete commodity times phase grid whose missing combinations carry an
undefined mean rather than being omitted, and yields an undefined (not
raised, not infinite) percentage change whenever the before-mean is zero or
missing. -/
theorem c8_before_after (t : List Row) (pivot : Int) :
    (∀ rf ∈ tmpRows t pivot, rf.1 ∈ t ∧ rf.1.year ≠ pivot ∧
      (rf.2 = Fase.sebelum ↔ rf.1.year < pivot) ∧
      (rf.2 = Fase.sesudah ↔ pivot < rf.1.year)) ∧
    (∀ r ∈ t, r.year ≠ pivot → (r, faseOf pivot r) ∈ tmpRows t pivot) ∧
    (∀ c ∈ commsAfterPivot t pivot,
      (c, Fase.sebelum, meanPrice t pivot c Fase.sebelum) ∈ aggFull t pivot ∧
      (c, Fase.sesudah, meanPrice t pivot c Fase.sesudah) ∈ aggFull t pivot) ∧
    (∀ (c : String) (f : Fase), meanPrice t pivot c f = none ↔ phasePrices t pivot c f = []) ∧
    (∀ c : String,
      (meanPrice t pivot c Fase.sebelum = none ∨ meanPrice t pivot c Fase.sebelum = some 0) →
      perubahanPct t pivot c = none) := by
  refine ⟨?_, ?_, ?_, ?_, ?_⟩
  · intro rf hrf
    rw [tmpRows, List.mem_filter] at hrf
    obtain ⟨hmap, hpred⟩ := hrf
    rw [List.mem_map] at hmap
    obtain ⟨r, hr, heq⟩ := hmap
    subst heq
    have hyear : r.year ≠ pivot := by simpa using hpred
    refine ⟨hr, hyear, ?_, ?_⟩
    · rw [faseOf]
      by_cases h : r.year < pivot
      · simp [h]
      · simp [h]
    · rw [faseOf]
      by_cases h : r.year < pivot
      · simp [h]
        omega
      · simp [h]
        omega
  · intro r hr hyear
    rw [tmpRows, List.mem_filter]
    constructor
    · exact List.mem_map.mpr ⟨r, hr, rfl⟩
    · simpa using hyear
  · exact aggOf_mem t pivot (commsAfterPivot t pivot)
  · intro c f
    rw [meanPrice]
    by_cases h : phasePrices t pivot c f = []
    · simp [h]
    · simp [h]
  · intro c hc
    rcases hc with hc | hc
    · rw [perubahanPct, hc]
    · rw [perubahanPct, hc]
      rcases meanPrice t pivot c Fase.sesudah with _ | a
      · rfl
      · simp

/-- Witness row for C8: commodity `"x"`, year 2020, price 0. -/
def w8r1 : Row :=
  { date := 20200601, commodity := "x", price := 0, currency := "IDR", unit := "",
    year := 2020, month := 6 }

/-- Witness row for C8: commodity `"x"`, year 2022, price 5. -/
def w8r2 : Row :=
  { date := 20220601, commodity := "x", price := 5, currency := "IDR", unit := "",
    year := 2022, month := 6 }

/-- Witness table for C8. -/
def w8 : List Row := [w8r1, w8r2]

/-- Witness for C8 at pivot year 2021: a non-pivot row lands in the `tmp`
frame with its phase label, and the commodity with before-mean zero gets an
undefined percentage change. -/
theorem c8_witness :
    ((w8r1, faseOf 2021 w8r1) ∈ tmpRows w8 2021) ∧ perubahanPct w8 2021 "x" = none := by
  have hpp : phasePrices w8 2021 "x" Fase.sebelum = [0] := by decide
  have hm : meanPrice w8 2021 "x" Fase.sebelum = some 0 := by
    rw [meanPrice, hpp]
    norm_num
  exact ⟨(c8_before_after w8 2021).2.1 w8r1 (by decide) (by decide),
    (c8_before_after w8 2021).2.2.2.2 "x" (Or.inr hm)⟩

/-- Comparison of percentage-change cells as floats sort them: `-inf` below
finite values below `+inf`; `nan` at the bottom (it is dropped before any
sort in the panel, so its place is immaterial). -/
def fleB : FVal → FVal → Bool
  | FVal.nan, _ => true
  | _, FVal.nan => false
  | FVal.ninf, _ => true
  | _, FVal.ninf => false
  | _, FVal.pinf => true
  | FVal.pinf, _ => false
  | FVal.val a, FVal.val b => decide (a ≤ b)

theorem fleB_refl (a : FVal) : fleB a a = true := by
  cases a <;> simp [fleB]

theorem fleB_total (a b : FVal) : fleB a b = true ∨ fleB b a = true := by
  cases a <;> cases b <;>
    first
      | (simp [fleB]; done)
      | (simp [fleB]
         exact le_total _ _)

theorem fleB_trans {a b c : FVal} (h1 : fleB a b = true) (h2 : fleB b c = true) :
    fleB a c = true := by
  cases a <;> cases b <;> cases c <;>
    first
      | (simp [fleB]; done)
      | (simp [fleB] at h1; done)
      | (simp [fleB] at h2; done)
      | (simp only [fleB, decide_eq_true_eq] at h1 h2 ⊢
         exact le_trans h1 h2)

/-- Does the row carry a defined (non-NaN) `mom_pct`? (`dropna` keeps it.) -/
def momDefinedB (r : DRow) : Bool := decide (r.mom_pct ≠ FVal.nan)

/-- Descending order on derived rows by `mom_pct`
(`sort_values("mom_pct", ascending=False)`). -/
def dGe (a b : DRow) : Prop := fleB b.mom_pct a.mom_pct = true

instance : DecidableRel dGe := by
  intro a b
  unfold dGe
  infer_instance

instance : IsTotal DRow dGe := by
  constructor
  intro a b
  rcases fleB_total b.mom_pct a.mom_pct with h | h
  · exact Or.inl h
  · exact Or.inr h

instance : IsTrans DRow dGe := by
  constructor
  intro a b c hab hbc
  exact fleB_trans hbc hab

/-- One row of the `peak_df` table of the monthly-spike panel. -/
structure PeakRow where
  komoditas : String
  bulan : Int
  lonjakan : FVal
  harga : Rat
deriving DecidableEq, Repr

/-- The peak entry of one commodity: drop the rows with undefined `mom_pct`,
sort descending by `mom_pct`, and take the first row; `none` when nothing
remains (the commodity is skipped). -/
def peakOf (t : List DRow) (c : String) : Option PeakRow :=
  match List.insertionSort dGe
      ((t.filter (fun r => decide (r.commodity = c))).filter momDefinedB) with
  | [] => none
  | r :: _ =>
      some { komoditas := c, bulan := r.date / 100, lonjakan := r.mom_pct, harga := r.price }

/-- The group keys of `groupby("commodity")`, sorted. -/
def commKeys (t : List DRow) : List String :=
  List.insertionSort (fun a b => strLeB a b = true) ((t.map (fun r => r.commodity)).dedup)

/-- The `peak_list` accumulation: one entry per commodity with a defined
spike, in key order. -/
def peakList (t : List DRow) : List PeakRow := (commKeys t).filterMap (peakOf t)

/-- Descending order on peak entries by spike size. -/
def pGe (a b : PeakRow) : Prop := fleB b.lonjakan a.lonjakan = true

instance : DecidableRel pGe := by
  intro a b
  unfold pGe
  infer_instance

instance : IsTotal PeakRow pGe := by
  constructor
  intro a b
  rcases fleB_total b.lonjakan a.lonjakan with h | h
  · exact Or.inl h
  · exact Or.inr h

instance : IsTrans PeakRow pGe := by
  constructor
  intro a b c hab hbc
  exact fleB_trans hbc hab

/-- Model of `peak_df` after its final
`sort_values("Lonjakan MoM (%)", ascending=False)`. -/
def peakDf (t : List DRow) : List PeakRow := List.insertionSort pGe (peakList t)

theorem peakOf_isSome (t : List DRow) (c : String) :
    (peakOf t c).isSome = true ↔ ∃ r ∈ t, r.commodity = c ∧ r.mom_pct ≠ FVal.nan := by
  rcases hsort : List.insertionSort dGe
      ((t.filter (fun r => decide (r.commodity = c))).filter momDefinedB) with _ | ⟨r, tl⟩
  · have hnone : peakOf t c = none := by
      unfold peakOf
      rw [hsort]
    rw [hnone]
    constructor
    · intro h
      exact absurd h (by simp)
    · rintro ⟨r, hr, hc, hdef⟩
      exfalso
      have hmem : r ∈ (t.filter (fun x => decide (x.commodity = c))).filter momDefinedB := by
        rw [List.mem_filter, List.mem_filter]
        exact ⟨⟨hr, decide_eq_true hc⟩, decide_eq_true hdef⟩
      have hsm : r ∈ List.insertionSort dGe
          ((t.filter (fun x => decide (x.commodity = c))).filter momDefinedB) :=
        (List.perm_insertionSort dGe _).mem_iff.mpr hmem
      rw [hsort] at hsm
      exact absurd hsm (List.not_mem_nil r)
  · have hsome : peakOf t c =
        some { komoditas := c, bulan := r.date / 100, lonjakan := r.mom_pct, harga := r.price } := by
      unfold peakOf
      rw [hsort]
    rw [hsome]
    constructor
    · intro _
      have hsm : r ∈ List.insertionSort dGe
          ((t.filter (fun x => decide (x.commodity = c))).filter momDefinedB) := by
        rw [hsort]
        exact List.mem_cons_self _ _
      have hmem := (List.perm_insertionSort dGe _).mem_iff.mp hsm
      rw [List.mem_filter, List.mem_filter] at hmem
      exact ⟨r, hmem.1.1, of_decide_eq_true hmem.1.2, of_decide_eq_true hmem.2⟩
    · intro _
      simp

theorem peakOf_komoditas {t : List DRow} {c : String} {e : PeakRow}
    (h : peakOf t c = some e) : e.komoditas = c := by
  rcases hsort : List.insertionSort dGe
      ((t.filter (fun r => decide (r.commodity = c))).filter momDefinedB) with _ | ⟨r, tl⟩
  · unfold peakOf at h
    rw [hsort] at h
    exact absurd h (by simp)
  · unfold peakOf at h
    rw [hsort] at h
    have he := Option.some.inj h
    rw [← he]

theorem peakOf_spec {t : List DRow} {c : String} {e : PeakRow} (h : peakOf t c = some e) :
    (∃ r ∈ t, r.commodity = c ∧ r.mom_pct = e.lonjakan ∧ r.mom_pct ≠ FVal.nan) ∧
    (∀ r ∈ t, r.commodity = c → r.mom_pct ≠ FVal.nan →
      fleB r.mom_pct e.lonjakan = true) := by
  rcases hsort : List.insertionSort dGe
      ((t.filter (fun x => decide (x.commodity = c))).filter momDefinedB) with _ | ⟨r, tl⟩
  · unfold peakOf at h
    rw [hsort] at h
    exact absurd h (by simp)
  · unfold peakOf at h
    rw [hsort] at h
    have he := Option.some.inj h
    have hlon : e.lonjakan = r.mom_pct := by
      rw [← he]
    have hsm : r ∈ List.insertionSort dGe
        ((t.filter (fun x => decide (x.commodity = c))).filter momDefinedB) := by
      rw [hsort]
      exact List.mem_cons_self _ _
    have hrmem := (List.perm_insertionSort dGe _).mem_iff.mp hsm
    rw [List.mem_filter, List.mem_filter] at hrmem
    constructor
    · exact ⟨r, hrmem.1.1, of_decide_eq_true hrmem.1.2, by rw [hlon],
        of_decide_eq_true hrmem.2⟩
    · intro r' hr' hc' hdef
      have hmem' : r' ∈ (t.filter (fun x => decide (x.commodity = c))).filter momDefinedB := by
        rw [List.mem_filter, List.mem_filter]
        exact ⟨⟨hr', decide_eq_true hc'⟩, decide_eq_true hdef⟩
      have hsm' : r' ∈ List.insertionSort dGe
          ((t.filter (fun x => decide (x.commodity = c))).filter momDefinedB) :=
        (List.perm_insertionSort dGe _).mem_iff.mpr hmem'
      rw [hsort] at hsm'
      rcases List.mem_cons.mp hsm' with hEq | hTl
      · rw [hEq, hlon]
        exact fleB_refl _
      · have hSorted : List.Sorted dGe (r :: tl) := by
          rw [← hsort]
          exact List.sorted_insertionSort dGe _
        have hrel := List.rel_of_sorted_cons hSorted r' hTl
        rw [hlon]
        exact hrel

theorem countP_filterMap_peak (t : List DRow) (l : List String) (hnd : l.Nodup) (c : String) :
    List.countP (fun e => decide (e.komoditas = c)) (l.filterMap (peakOf t)) =
      if c ∈ l ∧ (peakOf t c).isSome = true then 1 else 0 := by
  induction l with
  | nil => simp
  | cons d ds ih =>
    have hd : d ∉ ds := (List.nodup_cons.mp hnd).1
    have hnd' : ds.Nodup := (List.nodup_cons.mp hnd).2
    rw [List.filterMap_cons]
    rcases hpeak : peakOf t d with _ | e
    · rw [ih hnd']
      by_cases hcd : c = d
      · subst hcd
        rw [if_neg, if_neg]
        · rintro ⟨_, hsome⟩
          rw [hpeak] at hsome
          exact absurd hsome (by simp)
        · rintro ⟨hmem, _⟩
          exact hd hmem
      · by_cases hcm : c ∈ ds ∧ (peakOf t c).isSome = true
        · rw [if_pos hcm, if_pos ⟨List.mem_cons.mpr (Or.inr hcm.1), hcm.2⟩]
        · rw [if_neg hcm, if_neg]
          rintro ⟨hmem, hsome⟩
          rcases List.mem_cons.mp hmem with h | h
          · exact hcd h
          · exact hcm ⟨h, hsome⟩
    · have hkom : e.komoditas = d := peakOf_komoditas hpeak
      rw [List.countP_cons, ih hnd']
      by_cases hcd : c = d
      · subst hcd
        simp [hkom, hpeak, hd]
      · have hpe : (decide (e.komoditas = c)) = false := by
          rw [hkom]
          simp only [decide_eq_false_iff_not]
          intro h
          exact hcd h.symm
        simp [hpe, List.mem_cons, hcd]

/-- C7: in the monthly-spike panel, each commodity possessing at least one
defined `mom_pct` contributes exactly one row of `peak_df`, whose spike is
the maximum defined `mom_pct` of that commodity (attained by one of its
rows and at least as large as every other defined one); commodities with no
defined `mom_pct` are absent; and the output is ordered descending by spike
size. -/
theorem c7_monthly_spike (t : List DRow) :
    (∀ c : String, List.countP (fun e => decide (e.komoditas = c)) (peakDf t) =
      if ∃ r ∈ t, r.commodity = c ∧ r.mom_pct ≠ FVal.nan then 1 else 0) ∧
    (∀ e ∈ peakDf t,
      (∃ r ∈ t, r.commodity = e.komoditas ∧ r.mom_pct = e.lonjakan ∧
        r.mom_pct ≠ FVal.nan) ∧
      (∀ r ∈ t, r.commodity = e.komoditas → r.mom_pct ≠ FVal.nan →
        fleB r.mom_pct e.lonjakan = true)) ∧
    List.Pairwise pGe (peakDf t) := by
  refine ⟨?_, ?_, ?_⟩
  · intro c
    have hperm : List.Perm (peakDf t) (peakList t) := List.perm_insertionSort pGe _
    rw [hperm.countP_eq, peakList]
    have hcommnodup : (commKeys t).Nodup :=
      ((List.perm_insertionSort _ _).nodup_iff).mpr (List.nodup_dedup _)
    rw [countP_filterMap_peak t (commKeys t) hcommnodup c]
    have hkeys : c ∈ commKeys t ↔ ∃ r ∈ t, r.commodity = c := by
      rw [commKeys, (List.perm_insertionSort _ _).mem_iff, List.mem_dedup]
      constructor
      · intro h
        obtain ⟨r, hr, heq⟩ := List.mem_map.mp h
        exact ⟨r, hr, heq⟩
      · rintro ⟨r, hr, heq⟩
        exact List.mem_map.mpr ⟨r, hr, heq⟩
    by_cases h : ∃ r ∈ t, r.commodity = c ∧ r.mom_pct ≠ FVal.nan
    · rw [if_pos h, if_pos]
      obtain ⟨r, hr, hc', hdef⟩ := h
      exact ⟨hkeys.mpr ⟨r, hr, hc'⟩, (peakOf_isSome t c).mpr ⟨r, hr, hc', hdef⟩⟩
    · rw [if_neg h, if_neg]
      rintro ⟨_, hs⟩
      exact h ((peakOf_isSome t c).mp hs)
  · intro e he
    have hperm : List.Perm (peakDf t) (peakList t) := List.perm_insertionSort pGe _
    have he' : e ∈ peakList t := hperm.mem_iff.mp he
    rw [peakList] at he'
    obtain ⟨c, hc, hpk⟩ := List.mem_filterMap.mp he'
    have hkom := peakOf_komoditas hpk
    have hspec := peakOf_spec hpk
    rw [← hkom] at hspec
    exact hspec
  · exact List.sorted_insertionSort pGe (peakList t)

/-- Witness rows for C7: commodity `"p"` with two defined spikes, commodity
`"q"` with only an undefined one. -/
def wd7r1 : DRow :=
  { date := 20230105, commodity := "p", price := 10, currency := "IDR", unit := "",
    year := 2023, month := 1, mom_pct := FVal.val 5, yoy_pct := FVal.nan }

/-- Second witness row (the smaller spike of commodity `"p"`). -/
def wd7r2 : DRow :=
  { date := 20230205, commodity := "p", price := 12, currency := "IDR", unit := "",
    year := 2023, month := 2, mom_pct := FVal.val 2, yoy_pct := FVal.nan }

/-- Third witness row: commodity `"q"` with no defined spike. -/
def wd7r3 : DRow :=
  { date := 20230105, commodity := "q", price := 3, currency := "IDR", unit := "",
    year := 2023, month := 1, mom_pct := FVal.nan, yoy_pct := FVal.nan }

/-- Witness derived table for C7. -/
def wd7 : List DRow := [wd7r1, wd7r2, wd7r3]

/-- The peak entry produced for commodity `"p"` on the witness table. -/
def wd7peak : PeakRow :=
  { komoditas := "p", bulan := 202301, lonjakan := FVal.val 5, harga := 10 }

/-- Witness for C7: commodity `"p"` contributes exactly one row, its entry
dominates the other defined spike of `"p"`, and the output is sorted
descending. -/
theorem c7_witness :
    List.countP (fun e => decide (e.komoditas = "p")) (peakDf wd7) = 1 ∧
    fleB wd7r2.mom_pct wd7peak.lonjakan = true ∧
    List.Pairwise pGe (peakDf wd7) := by
  refine ⟨?_, ?_, (c7_monthly_spike wd7).2.2⟩
  · have h := (c7_monthly_spike wd7).1 "p"
    rw [if_pos ⟨wd7r1, by decide, rfl, by decide⟩] at h
    exact h
  · exact ((c7_monthly_spike wd7).2.1 wd7peak (by decide)).2 wd7r2 (by decide) rfl (by decide)

/-- Does a CSV cell need quoting under minimal quoting (it contains the
delimiter, the quote character, or a line-break character)? -/
def cellNeedsQuote (cell : List Char) : Bool :=
  cell.any (fun ch => ch = ',' || ch = '"' || ch = '\n' || ch = '\r')

/-- Double every quote character of a cell body (CSV quote escaping). -/
def dupQuotes : List Char → List Char
  | [] => []
  | ch :: cs => if ch = '"' then '"' :: '"' :: dupQuotes cs else ch :: dupQuotes cs

/-- Serialization of one cell, quoting it only when needed. -/
def escCell (cell : List Char) : List Char :=
  if cellNeedsQuote cell then '"' :: (dupQuotes cell ++ ['"']) else cell

/-- Serialization of one record: the cells joined by the delimiter. -/
def lineOf : List (List Char) → List Char
  | [] => []
  | [c] => escCell c
  | c :: cs => escCell c ++ ',' :: lineOf cs

/-- Serialization of a table: each record terminated by a newline, as
`to_csv` emits. -/
def csvDoc : List (List (List Char)) → List Char
  | [] => []
  | r :: rs => lineOf r ++ '\n' :: csvDoc rs

/-- Parser state: inside an unquoted cell, inside a quoted cell, or just
after a closing quote (where a doubled quote re-opens the cell). -/
inductive PState : Type where
  | raw : PState
  | quoted : PState
  | postq : PState
deriving DecidableEq, Repr

/-- CSV parsing state machine over the character stream. `cell` is the cell
being read, `row` the cells of the current record, `acc` the finished
records. -/
def parseAux : PState → List Char → List (List Char) → List (List (List Char)) → List Char →
    List (List (List Char))
  | PState.raw, cell, row, acc, [] =>
      if cell.isEmpty && row.isEmpty then acc else acc ++ [row ++ [cell]]
  | PState.quoted, cell, row, acc, [] => acc ++ [row ++ [cell]]
  | PState.postq, cell, row, acc, [] => acc ++ [row ++ [cell]]
  | PState.raw, cell, row, acc, ch :: rest =>
      if ch = ',' then parseAux PState.raw [] (row ++ [cell]) acc rest
      else if ch = '\n' then parseAux PState.raw [] [] (acc ++ [row ++ [cell]]) rest
      else if ch = '"' then
        (if cell.isEmpty then parseAux PState.quoted cell row acc rest
         else parseAux PState.raw (cell ++ [ch]) row acc rest)
      else parseAux PState.raw (cell ++ [ch]) row acc rest
  | PState.quoted, cell, row, acc, ch :: rest =>
      if ch = '"' then parseAux PState.postq cell row acc rest
      else parseAux PState.quoted (cell ++ [ch]) row acc rest
  | PState.postq, cell, row, acc, ch :: rest =>
      if ch = '"' then parseAux PState.quoted (cell ++ [ch]) row acc rest
      else if ch = ',' then parseAux PState.raw [] (row ++ [cell]) acc rest
      else if ch = '\n' then parseAux PState.raw [] [] (acc ++ [row ++ [cell]]) rest
      else parseAux PState.raw (cell ++ [ch]) row acc rest

/-- CSV parsing of a whole document. -/
def csvParse (doc : List Char) : List (List (List Char)) :=
  parseAux PState.raw [] [] [] doc

theorem parse_raw_chars (cell : List Char) (hc : cellNeedsQuote cell = false)
    (acc0 : List Char) (row : List (List Char)) (acc : List (List (List Char)))
    (rest : List Char) :
    parseAux PState.raw acc0 row acc (cell ++ rest) =
      parseAux PState.raw (acc0 ++ cell) row acc rest := by
  revert hc
  induction cell generalizing acc0 with
  | nil =>
    intro _
    simp
  | cons ch cs ih =>
    intro hc
    simp only [cellNeedsQuote, List.any_cons, Bool.or_eq_false_iff,
      decide_eq_false_iff_not] at hc
    obtain ⟨⟨⟨⟨h1, h2⟩, h3⟩, h4⟩, h5⟩ := hc
    show parseAux PState.raw acc0 row acc (ch :: (cs ++ rest)) = _
    simp only [parseAux]
    rw [if_neg h1, if_neg h3, if_neg h2]
    rw [ih (acc0 ++ [ch])]
    · rw [List.append_assoc]
      rfl
    · simp only [cellNeedsQuote]
      exact h5

theorem parse_quoted_chars (cell : List Char)
    (acc0 : List Char) (row : List (List Char)) (acc : List (List (List Char)))
    (rest : List Char) :
    parseAux PState.quoted acc0 row acc (dupQuotes cell ++ '"' :: rest) =
      parseAux PState.postq (acc0 ++ cell) row acc rest := by
  induction cell generalizing acc0 with
  | nil =>
    show parseAux PState.quoted acc0 row acc ('"' :: rest) = _
    simp only [parseAux, if_true]
    rw [List.append_nil]
  | cons ch cs ih =>
    by_cases hch : ch = '"'
    · subst hch
      rw [show dupQuotes ('"' :: cs) = '"' :: '"' :: dupQuotes cs from by simp [dupQuotes]]
      show parseAux PState.quoted acc0 row acc ('"' :: ('"' :: (dupQuotes cs ++ '"' :: rest))) = _
      simp only [parseAux, if_true]
      rw [ih (acc0 ++ ['"'])]
      rw [List.append_assoc]
      rfl
    · rw [show dupQuotes (ch :: cs) = ch :: dupQuotes cs from by simp [dupQuotes, hch]]
      show parseAux PState.quoted acc0 row acc (ch :: (dupQuotes cs ++ '"' :: rest)) = _
      simp only [parseAux]
      rw [if_neg hch]
      rw [ih (acc0 ++ [ch])]
      rw [List.append_assoc]
      rfl

theorem parse_cell_comma (cell : List Char) (row : List (List Char))
    (acc : List (List (List Char))) (rest : List Char) :
    parseAux PState.raw [] row acc (escCell cell ++ ',' :: rest) =
      parseAux PState.raw [] (row ++ [cell]) acc rest := by
  rw [escCell]
  by_cases hq : cellNeedsQuote cell = true
  · rw [if_pos hq]
    show parseAux PState.raw [] row acc ('"' :: ((dupQuotes cell ++ ['"']) ++ ',' :: rest)) = _
    simp only [parseAux, if_true, List.isEmpty_nil]
    rw [List.append_assoc]
    show parseAux PState.quoted [] row acc (dupQuotes cell ++ '"' :: ',' :: rest) = _
    rw [parse_quoted_chars]
    show parseAux PState.postq cell row acc (',' :: rest) = _
    simp only [parseAux, if_true]
    rw [if_neg (by decide : ¬(',' = '"'))]
  · rw [if_neg hq]
    rw [parse_raw_chars cell (Bool.eq_false_iff.mpr hq)]
    show parseAux PState.raw cell row acc (',' :: rest) = _
    simp only [parseAux, if_true]

theorem parse_cell_newline (cell : List Char) (row : List (List Char))
    (acc : List (List (List Char))) (rest : List Char) :
    parseAux PState.raw [] row acc (escCell cell ++ '\n' :: rest) =
      parseAux PState.raw [] [] (acc ++ [row ++ [cell]]) rest := by
  rw [escCell]
  by_cases hq : cellNeedsQuote cell = true
  · rw [if_pos hq]
    show parseAux PState.raw [] row acc ('"' :: ((dupQuotes cell ++ ['"']) ++ '\n' :: rest)) = _
    simp only [parseAux, if_true, List.isEmpty_nil]
    rw [List.append_assoc]
    show parseAux PState.quoted [] row acc (dupQuotes cell ++ '"' :: '\n' :: rest) = _
    rw [parse_quoted_chars]
    show parseAux PState.postq cell row acc ('\n' :: rest) = _
    simp only [parseAux, if_true]
    rw [if_neg (by decide : ¬('\n' = '"')), if_neg (by decide : ¬('\n' = ','))]
  · rw [if_neg hq]
    rw [parse_raw_chars cell (Bool.eq_false_iff.mpr hq)]
    show parseAux PState.raw cell row acc ('\n' :: rest) = _
    simp only [parseAux, if_true]
    rw [if_neg (by decide : ¬('\n' = ','))]

theorem parse_line_cons (c : List Char) (cs : List (List Char)) :
    ∀ (row : List (List Char)) (acc : List (List (List Char))) (rest : List Char),
      parseAux PState.raw [] row acc (lineOf (c :: cs) ++ '\n' :: rest) =
        parseAux PState.raw [] [] (acc ++ [row ++ (c :: cs)]) rest := by
  induction cs generalizing c with
  | nil =>
    intro row acc rest
    rw [show lineOf [c] = escCell c from rfl]
    exact parse_cell_newline c row acc rest
  | cons d ds ih =>
    intro row acc rest
    rw [show lineOf (c :: d :: ds) = escCell c ++ ',' :: lineOf (d :: ds) from rfl]
    rw [List.append_assoc]
    show parseAux PState.raw [] row acc (escCell c ++ ',' :: (lineOf (d :: ds) ++ '\n' :: rest)) = _
    rw [parse_cell_comma, ih d (row ++ [c])]
    rw [show (row ++ [c]) ++ (d :: ds) = row ++ (c :: d :: ds) from by simp]

theorem parse_doc (rows : List (List (List Char))) (hne : ∀ r ∈ rows, r ≠ [])
    (acc : List (List (List Char))) :
    parseAux PState.raw [] [] acc (csvDoc rows) = acc ++ rows := by
  revert hne
  induction rows generalizing acc with
  | nil =>
    intro _
    simp [csvDoc, parseAux]
  | cons r rs ih =>
    intro hne
    rw [show csvDoc (r :: rs) = lineOf r ++ '\n' :: csvDoc rs from rfl]
    rcases r with _ | ⟨c, cs⟩
    · exact absurd rfl (hne [] (List.mem_cons_self _ _))
    · rw [parse_line_cons c cs [] acc (csvDoc rs)]
      rw [ih (acc ++ [[] ++ (c :: cs)]) (fun r hr => hne r (List.mem_cons.mpr (Or.inr hr)))]
      simp

/-- Round trip of the delimited-text layer: parsing the serialization of any
table of records (each with at least one cell) reproduces it exactly. -/
theorem csvParse_csvDoc (rows : List (List (List Char))) (hne : ∀ r ∈ rows, r ≠ []) :
    csvParse (csvDoc rows) = rows := by
  rw [csvParse, parse_doc rows hne []]
  rfl

/-- Header record of the exported file: all columns of the filtered table,
the derived `year`/`month` included. -/
def headerCells : List (List Char) :=
  ["date".data, "commodity".data, "price".data, "currency".data, "unit".data,
   "year".data, "month".data]

/-- Rendering of an integer cell. -/
def intCell (n : Int) : List Char := (toString n).data

/-- Rendering of a price cell. -/
def ratCell (q : Rat) : List Char := (toString q).data

/-- Rendering of one filtered row into its record of cells. -/
def rowCells (r : Row) : List (List Char) :=
  [intCell r.date, r.commodity.data, ratCell r.price, r.currency.data, r.unit.data,
   intCell r.year, intCell r.month]

/-- Model of `df_f.to_csv(index=False)`: the delimited-text serialization of
the filtered table (header record then one record per row), whose UTF-8
bytes are offered for download with no further transformation. -/
def exportCsv (t : List Row) : List Char := csvDoc (headerCells :: t.map rowCells)

/-- C9: export round trip — parsing the exported delimited text back with
the same delimited-text rules reproduces the filtered table's header and
rows exactly, for every filtered table. -/
theorem c9_export_round_trip (df : List Row) (sel : List String) (startDate endDate : Int) :
    csvParse (exportCsv (filterData df sel startDate endDate)) =
      headerCells :: (filterData df sel startDate endDate).map rowCells := by
  apply csvParse_csvDoc
  intro r hr
  rcases List.mem_cons.mp hr with h | h
  · subst h
    intro hcon
    exact absurd hcon (by simp [headerCells])
  · obtain ⟨x, _, hx⟩ := List.mem_map.mp h
    rw [← hx]
    intro hcon
    exact absurd hcon (by simp [rowCells])
